import Mathlib

/-!
Verification of the search / filter / aggregation pipeline and of the
import-and-add logic of the Fusion finance-fix dashboard (`src/App.tsx`).

JS strings are modelled as `List Char`.  JS runtime facilities used by the
code (`String.prototype.trim` / `toLowerCase` / `normalize("NFKD")` /
`includes` / `split`, `RegExp` construction and unanchored `test`, `Map`
iteration order, stable `Array.prototype.sort`, `localeCompare`,
`Math.round`) are modelled on the fragments the code actually exercises;
each such model carries a doc comment saying what it covers.
-/

/-- JS strings, modelled as lists of characters. -/
abbrev Str := List Char

/-- Whitespace as recognised by `String.prototype.trim` and the regex class
`\s`, restricted to the ASCII fragment (space, tab, line feed, vertical tab,
form feed, carriage return). -/
def isJsWs (c : Char) : Bool :=
  c = ' ' || c = '\t' || c = '\n' || c = '\r' || c = '\x0b' || c = '\x0c'

/-- `String.prototype.trim`: drop whitespace from both ends. -/
def jsTrim (s : Str) : Str :=
  ((s.dropWhile isJsWs).reverse.dropWhile isJsWs).reverse

/-- `String.prototype.toLowerCase`, modelled on ASCII letters plus the
Latin-1 accented letter exercised in this development (`É`). -/
def lowerChar (c : Char) : Char :=
  if 'A' ≤ c ∧ c ≤ 'Z' then Char.ofNat (c.toNat + 32)
  else if c = 'É' then 'é' else c

/-- Unicode compatibility decomposition (`String.prototype.normalize("NFKD")`),
modelled as the identity on ASCII plus the decomposition of the accented
letters exercised here (`é`/`É` → base letter followed by U+0301). -/
def nfkdChar (c : Char) : Str :=
  if c = 'é' then ['e', Char.ofNat 0x301]
  else if c = 'É' then ['E', Char.ofNat 0x301]
  else [c]

/-- The combining diacritical marks U+0300–U+036F removed by `normalize`. -/
def isCombining (c : Char) : Bool :=
  0x300 ≤ c.toNat && c.toNat ≤ 0x36f

/-- `normalize` from App.tsx: lower-case, NFKD-decompose, then strip the
combining diacritical marks. -/
def normalizeText (s : Str) : Str :=
  ((s.map lowerChar).flatMap nfkdChar).filter (fun c => !isCombining c)

/-- The wildcard markers recognised by the query compiler (regex `[%_]`). -/
def isWildcard (c : Char) : Bool := c = '%' || c = '_'

/-- The character class escaped by `sqlLikeToRegex`
(the JS regex `[-\/\\^$*+?.()|[\]{}]`). -/
def isMeta (c : Char) : Bool :=
  c = '-' || c = '/' || c = '\\' || c = '^' || c = '$' || c = '*' || c = '+' ||
  c = '?' || c = '.' || c = '(' || c = ')' || c = '|' || c = '[' || c = ']' ||
  c = Char.ofNat 0x7b || c = Char.ofNat 0x7d

/-- `pattern.replace(/[-\/\\^$*+?.()|[\]{}]/g, "\\$&")`: prefix every
metacharacter with a backslash. -/
def escapeMeta (s : Str) : Str :=
  s.flatMap (fun c => if isMeta c then ['\\', c] else [c])

/-- `.replace(/%/g, ".*")`. -/
def substPercent (s : Str) : Str :=
  s.flatMap (fun c => if c = '%' then ['.', '*'] else [c])

/-- `.replace(/_/g, ".")`. -/
def substUnderscore (s : Str) : Str :=
  s.flatMap (fun c => if c = '_' then ['.'] else [c])

/-- `sqlLikeToRegex` from App.tsx: the source string of the compiled
`RegExp` (escape all metacharacters, then `%` → `.*`, then `_` → `.`). -/
def sqlLikeToRegex (p : Str) : Str :=
  substUnderscore (substPercent (escapeMeta p))

/-- Case-insensitive character comparison (the `"i"` flag of the compiled
`RegExp`). -/
def ciEq (a b : Char) : Bool := lowerChar a = lowerChar b

/-- Tokens of the regex fragment produced by `sqlLikeToRegex`:
backslash-escaped literals, `.` and `.*`. -/
inductive RegTok where
  | lit (c : Char)
  | anyOne
  | anyStar
deriving DecidableEq, Repr

/-- Parser for the regex fragment produced by `sqlLikeToRegex`: a
backslash-escaped character is a literal, `.*` matches any sequence, `.`
matches one character, and any other (necessarily unescaped) metacharacter
falls outside the fragment. `parseRegex` together with `regexTest` is the
model of `new RegExp(src, "i")` on this fragment. -/
def parseRegexF : Nat → Str → Option (List RegTok)
  | _, [] => some []
  | 0, _ :: _ => none
  | fuel + 1, c :: rest =>
    if c = '\\' then
      match rest with
      | [] => none
      | d :: rest2 => (parseRegexF fuel rest2).map (fun ts => .lit d :: ts)
    else if c = '.' then
      if rest.head? = some '*' then
        (parseRegexF fuel rest.tail).map (fun ts => .anyStar :: ts)
      else (parseRegexF fuel rest).map (fun ts => .anyOne :: ts)
    else if isMeta c then none
    else (parseRegexF fuel rest).map (fun ts => .lit c :: ts)

/-- The parser, with enough fuel for its input (every step consumes at
least one character, so `s.length` steps always suffice). -/
def parseRegex (s : Str) : Option (List RegTok) :=
  parseRegexF s.length s

/-- `suffAny f h` holds when `f` accepts some suffix of `h` (including `h`
itself and the empty suffix). -/
def suffAny (f : Str → Bool) : Str → Bool
  | [] => f []
  | c :: t => f (c :: t) || suffAny f t

/-- `tokMatchPre ts h`: the token list `ts` matches some prefix of `h`
(the nondeterministic matching semantics of the regex fragment). -/
def tokMatchPre : List RegTok → Str → Bool
  | [], _ => true
  | .lit c :: ts, hs =>
    match hs with
    | [] => false
    | d :: hs2 => ciEq c d && tokMatchPre ts hs2
  | .anyOne :: ts, hs =>
    match hs with
    | [] => false
    | _ :: hs2 => tokMatchPre ts hs2
  | .anyStar :: ts, hs => suffAny (tokMatchPre ts) hs

/-- `new RegExp(src, "i").test(h)`: unanchored search, i.e. the pattern
matches starting at some position of `h`. -/
def regexTest (src h : Str) : Bool :=
  match parseRegex src with
  | some ts => suffAny (tokMatchPre ts) h
  | none => false

/-- `String.prototype.includes`: substring test. -/
def includes (h needle : Str) : Bool :=
  needle.isPrefixOf h ||
    match h with
    | [] => false
    | _ :: t => includes t needle

/-- `matchesQuery` from App.tsx. -/
def matchesQuery (hay q : Str) : Bool :=
  let h := normalizeText hay
  let query := jsTrim q
  if query.isEmpty then true
  else if query.any isWildcard then
    regexTest (sqlLikeToRegex (normalizeText query)) h
  else
    includes h (normalizeText query)

/-- SQL-LIKE glob matching as the spec states it, matching some prefix of
the haystack: `%` matches any character sequence including the empty one,
`_` matches exactly one character, and every other pattern character
matches itself literally (case-insensitively). -/
def globMatchPre : Str → Str → Bool
  | [], _ => true
  | c :: ps, hs =>
    if c = '%' then suffAny (globMatchPre ps) hs
    else
      match hs with
      | [] => false
      | d :: hs2 =>
        if c = '_' then globMatchPre ps hs2
        else ciEq c d && globMatchPre ps hs2

/-- Unanchored SQL-LIKE glob search: the pattern matches some contiguous
substring of the haystack. -/
def globSearch (p h : Str) : Bool :=
  suffAny (globMatchPre p) h

/-- The token reading of a raw wildcard query: `%` is any-sequence, `_` is
any-one-character, everything else is a literal. -/
def globToks (p : Str) : List RegTok :=
  p.map fun c => if c = '%' then .anyStar else if c = '_' then .anyOne else .lit c

/-- A value of a content field (`rca` / `prechecks` / `steps` / `validation`):
in JS it is `undefined`/`null`, a string, or an array of strings. -/
inductive ContentField where
  | absent
  | str (s : Str)
  | arr (xs : List Str)
deriving DecidableEq, Repr

/-- `??` (nullish coalescing) on content fields. -/
def cfOr (a b : ContentField) : ContentField :=
  match a with
  | .absent => b
  | x => x

/-- `Array.prototype.join(" ")`. -/
def joinSpace (xs : List Str) : Str :=
  List.intercalate [' '] xs

/-- `toText` from App.tsx (`!v` is also true for the empty string, for which
returning `""` coincides with returning the string itself). -/
def toText : ContentField → Str
  | .absent => []
  | .str s => s
  | .arr xs => joinSpace xs

/-- The `Solution` record shape of App.tsx (the `id` is modelled as a string;
the code stringifies it before display). -/
structure Solution where
  id : Str
  title : Str
  module : Str
  severity : Option Str := none
  rca : ContentField := .absent
  prechecks : ContentField := .absent
  steps : ContentField := .absent
  validation : ContentField := .absent
  tags : Option (List Str) := none
  lastUpdated : Option Str := none
  links : Option (List (Str × Str)) := none
deriving DecidableEq, Repr

/-- The search haystack built in `solutionsInView`:
`` `${title} ${module} ${toText rca} ${toText prechecks} ${toText steps}
${toText validation} ${(tags ?? []).join(" ")}` ``. -/
def haystack (s : Solution) : Str :=
  s.title ++ [' '] ++ s.module ++ [' '] ++ toText s.rca ++ [' ']
    ++ toText s.prechecks ++ [' '] ++ toText s.steps ++ [' ']
    ++ toText s.validation ++ [' '] ++ joinSpace (s.tags.getD [])

/-- `solutionsInView` from App.tsx: module-equality filter (with the `"All"`
sentinel) and then the query matcher. -/
def solutionsInView (sols : List Solution) (moduleFilter query : Str) :
    List Solution :=
  sols.filter (fun s =>
    if moduleFilter == "All".toList || s.module == moduleFilter then
      matchesQuery (haystack s) query
    else false)

/-- Insert into a sorted list, after every element the comparator places
strictly before `x`. `sortInsert` & `stableSort` model the stable
`Array.prototype.sort(cmp)`: `lt a b` stands for `cmp(a, b) < 0`. -/
def sortInsert (lt : α → α → Bool) (x : α) : List α → List α
  | [] => [x]
  | y :: ys => if lt y x then y :: sortInsert lt x ys else x :: y :: ys

/-- Stable sort by a JS comparator (see `sortInsert`). -/
def stableSort (lt : α → α → Bool) : List α → List α
  | [] => []
  | x :: xs => sortInsert lt x (stableSort lt xs)

/-- The `Map.prototype.set`-based upsert shared by `moduleCounts` and
`groupedArticles`, with a JS `Map` modelled as an association list in key
insertion order: setting an existing key updates its entry in place,
setting a fresh key appends a new entry. -/
def mapUpsert (k : Str) (f : Beta → Beta) (v : Beta)
    (acc : List (Str × Beta)) : List (Str × Beta) :=
  if acc.any (fun e => e.1 == k) then
    acc.map (fun e => if e.1 == k then (e.1, f e.2) else e)
  else acc ++ [(k, v)]

/-- The `Map`-based tally of `moduleCounts`, mirroring
`map.set(m, (map.get(m) || 0) + 1)` and the insertion-order iteration of a
JS `Map`. -/
def tallyModules (ms : List Str) : List (Str × Nat) :=
  ms.foldl (fun acc m => mapUpsert m (· + 1) 1 acc) []

/-- `moduleCounts` from App.tsx: tally by module, then
`.sort((a, b) => b.count - a.count)` (descending by count, stable). -/
def moduleCounts (inView : List Solution) : List (Str × Nat) :=
  stableSort (fun a b => b.2 < a.2) (tallyModules (inView.map (·.module)))

/-- `Math.round` on a nonnegative rational: `⌊q + 1/2⌋`. -/
def jsRound (q : ℚ) : ℤ := ⌊q + 1/2⌋

/-- The "% of Total" column: for each entry of `moduleCounts`,
`totalArticles ? Math.round((count / totalArticles) * 100) : 0`. -/
def percentages (inView : List Solution) : List ℤ :=
  (moduleCounts inView).map (fun mc =>
    if inView.length = 0 then 0
    else jsRound ((mc.2 : ℚ) / (inView.length : ℚ) * 100))

/-- The `Map`-based grouping of `groupedArticles`: buckets in key insertion
order, each bucket accumulating its members in encounter order
(`group.get(module).push(article)`). -/
def groupFold (arts : List Solution) : List (Str × List Solution) :=
  arts.foldl (fun acc a => mapUpsert a.module (· ++ [a]) [a] acc) []

/-- Case weight of a character (tertiary level of the collation model). -/
def caseWeight (c : Char) : Nat := if 'A' ≤ c ∧ c ≤ 'Z' then 1 else 0

/-- Collation key modelling `String.prototype.localeCompare` under the
default (ICU root) collation, restricted to ASCII strings: strings compare
case-insensitively by base letter first (primary level); equal primaries
are ordered by case, lowercase before uppercase (tertiary level).  The key
is the primary sequence (shifted by one), a separator, then the case
weights; `localeCompare(a, b) < 0` iff `localeKey a` is lexicographically
smaller than `localeKey b`. -/
def localeKey (s : Str) : List Nat :=
  (s.map (fun c => (lowerChar c).toNat + 1)) ++ 0 :: s.map caseWeight

/-- Lexicographic non-strict comparison of key sequences. -/
def lexLeN : List Nat → List Nat → Bool
  | [], _ => true
  | _ :: _, [] => false
  | a :: as, b :: bs =>
    if a < b then true else if b < a then false else lexLeN as bs

/-- Lexicographic strict comparison of key sequences. -/
def lexLtN : List Nat → List Nat → Bool
  | [], [] => false
  | [], _ :: _ => true
  | _ :: _, [] => false
  | a :: as, b :: bs =>
    if a < b then true else if b < a then false else lexLtN as bs

/-- `a.localeCompare(b) < 0` in the collation model (see `localeKey`). -/
def localeLt (a b : Str) : Bool := lexLtN (localeKey a) (localeKey b)

/-- `a.localeCompare(b) ≤ 0` in the collation model (see `localeKey`). -/
def localeLe (a b : Str) : Bool := lexLeN (localeKey a) (localeKey b)

/-- `groupedArticles` from App.tsx: group by module in insertion order, then
`.sort((a, b) => a.module.localeCompare(b.module))`. -/
def groupedArticles (arts : List Solution) : List (Str × List Solution) :=
  stableSort (fun a b => localeLt a.1 b.1) (groupFold arts)

/-- Ordinal (code-unit) string comparison, `a <= b` on JS strings — what the
spec's "case-sensitive ordinal comparison" denotes. -/
def ordLe (a b : Str) : Bool := lexLeN (a.map Char.toNat) (b.map Char.toNat)

/-- Lower-case ASCII letters and digits — the class kept by `canon`'s
regex `[^a-z0-9]`. -/
def isLowerAlnum (c : Char) : Bool :=
  ('a' ≤ c && c ≤ 'z') || ('0' ≤ c && c ≤ '9')

/-- Replace every maximal run of characters satisfying `p` by a single
space (a global regex replace of `X+` with `" "`); `inRun` records whether
the previous character was part of such a run. -/
def collapseRunsAux (p : Char → Bool) (inRun : Bool) : Str → Str
  | [] => []
  | c :: cs =>
    if p c then
      (if inRun then [] else [' ']) ++ collapseRunsAux p true cs
    else c :: collapseRunsAux p false cs

/-- Replace every maximal run of characters satisfying `p` by one space. -/
def collapseRuns (p : Char → Bool) (s : Str) : Str :=
  collapseRunsAux p false s

/-- `canon` from App.tsx (identical in `handleImport` and `submitAdd`):
`s.toLowerCase().replace(/[^a-z0-9]+/g, " ").replace(/\s+/g, " ").trim()`. -/
def canon (s : Str) : Str :=
  jsTrim (collapseRuns isJsWs
    (collapseRuns (fun c => !isLowerAlnum c) (s.map lowerChar)))

/-- The dedupe key of a record: `canon` applied to the template
`title ++ " " ++ module`. -/
def canonKey (s : Solution) : Str :=
  canon (s.title ++ [' '] ++ s.module)

/-- The merge step of `handleImport`: keep `existing` and append the
incoming records whose canonical key is not in the `seen` set built from
`existing`. -/
def mergeImport (sols incoming : List Solution) : List Solution :=
  let seen := sols.map canonKey
  sols ++ incoming.filter (fun s => !(seen.contains (canonKey s)))

/-- A raw element of an imported JSON array, shaped by the fields the
coercion in `handleImport` reads.  `none` (or `.absent`) stands for a
nullish/missing field; `tags` distinguishes an array value, a string value,
and anything else. -/
structure RawRec where
  id : Option Str := none
  title : Option Str := none
  issueSignature : Option Str := none
  module : Option Str := none
  severity : Option Str := none
  rca : ContentField := .absent
  rootCause : ContentField := .absent
  prechecks : ContentField := .absent
  preChecks : ContentField := .absent
  steps : ContentField := .absent
  resolutionSteps : ContentField := .absent
  validation : ContentField := .absent
  postValidation : ContentField := .absent
  tags : Option (Sum (List Str) Str) := none
  lastUpdated : Option Str := none
  updatedAt : Option Str := none
  links : Option (List (Str × Str)) := none
  references : Option (List (Str × Str)) := none
deriving DecidableEq, Repr

/-- `String.prototype.split(sep)` for a one-character separator (the result
is never empty; `"".split(",")` is `[""]`). -/
def splitOnChar (sep : Char) : Str → List Str
  | [] => [[]]
  | c :: cs =>
    if c = sep then [] :: splitOnChar sep cs
    else
      match splitOnChar sep cs with
      | [] => [[c]]
      | t :: ts => (c :: t) :: ts

/-- `s.split(",").map(x => x.trim()).filter(Boolean)`. -/
def splitCommaClean (s : Str) : List Str :=
  ((splitOnChar ',' s).map jsTrim).filter (fun t => !t.isEmpty)

/-- The `tags` coercion of `handleImport`: an array value is kept as-is, a
string is comma-split (trimming pieces and dropping empty ones), anything
else becomes the empty list. -/
def coerceTags : Option (Sum (List Str) Str) → List Str
  | some (.inl l) => l
  | some (.inr s) => splitCommaClean s
  | none => []

/-- The per-element coercion of `handleImport`; `fid` stands for the value
`uid()` would produce for this element and `now` for `nowISO()`. -/
def coerceRaw (fid now : Str) (r : RawRec) : Solution :=
  { id := r.id.getD fid
    title := r.title.getD (r.issueSignature.getD "Untitled".toList)
    module := r.module.getD "General".toList
    severity := r.severity
    rca := cfOr r.rca r.rootCause
    prechecks := cfOr r.prechecks r.preChecks
    steps := cfOr r.steps r.resolutionSteps
    validation := cfOr r.validation r.postValidation
    tags := some (coerceTags r.tags)
    lastUpdated := some (r.lastUpdated.getD (r.updatedAt.getD now))
    links := some (r.links.getD (r.references.getD [])) }

/-- Coerce a whole incoming array; `fresh i` is the `uid()` value generated
for the element at index `i` (when it lacks an id). -/
def coerceAll (fresh : Nat → Str) (now : Str) : Nat → List RawRec → List Solution
  | _, [] => []
  | i, r :: rs => coerceRaw (fresh i) now r :: coerceAll fresh now (i + 1) rs

/-- The import payload after `JSON.parse`: the parse threw, the top-level
value is not an array, or an array of raw elements. -/
inductive ImportInput where
  | invalidJson
  | nonArray
  | array (xs : List RawRec)

/-- The error taxonomy of the import path (both the `JSON.parse` exception
and the explicit `"JSON must be an array"` throw surface as the spec's
`ParseError`). -/
inductive ImportError where
  | parseError
deriving DecidableEq, Repr

/-- `handleImport` from App.tsx, with the file read and `JSON.parse`
abstracted into `ImportInput`. -/
def handleImport (inp : ImportInput) (fresh : Nat → Str) (now : Str)
    (sols : List Solution) : Except ImportError (List Solution) :=
  match inp with
  | .invalidJson => .error .parseError
  | .nonArray => .error .parseError
  | .array xs => .ok (mergeImport sols (coerceAll fresh now 0 xs))

/-- The state transition of the import handler: `setSolutions` runs only on
success; on error the collection is left as it was. -/
def importStep (inp : ImportInput) (fresh : Nat → Str) (now : Str)
    (sols : List Solution) : List Solution :=
  match handleImport inp fresh now sols with
  | .ok merged => merged
  | .error _ => sols

/-- The Add Article form state (all plain strings, as in App.tsx). -/
structure AddForm where
  module : Str := []
  title : Str := []
  severity : Str := []
  tagsInput : Str := []
  rca : Str := []
  prechecks : Str := []
  steps : Str := []
  validation : Str := []
deriving DecidableEq, Repr

/-- `toLines` from `submitAdd`: split on `/\r?\n/`, trim each line, drop
empty lines. -/
def splitNewlines : Str → List Str
  | [] => [[]]
  | '\r' :: '\n' :: cs => [] :: splitNewlines cs
  | '\n' :: cs => [] :: splitNewlines cs
  | c :: cs =>
    match splitNewlines cs with
    | [] => [[c]]
    | t :: ts => (c :: t) :: ts

/-- `toLines` from App.tsx. -/
def toLines (v : Str) : List Str :=
  ((splitNewlines v).map jsTrim).filter (fun t => !t.isEmpty)

/-- The record built by `submitAdd`; `fid` stands for `uid()` and `now` for
`nowISO()`. -/
def mkAddItem (form : AddForm) (fid now : Str) : Solution :=
  { id := fid
    title := jsTrim form.title
    module := jsTrim form.module
    severity := if (jsTrim form.severity).isEmpty then none
                else some (jsTrim form.severity)
    tags := some (if form.tagsInput.isEmpty then []
                  else splitCommaClean form.tagsInput)
    rca := if (jsTrim form.rca).isEmpty then .absent
           else .str (jsTrim form.rca)
    prechecks := .arr (toLines form.prechecks)
    steps := .arr (toLines form.steps)
    validation := .arr (toLines form.validation)
    lastUpdated := some now
    links := some [] }

/-- Outcome of a `submitAdd` attempt: rejected for empty required fields,
aborted at the duplicate-confirmation gate, or committed with the new
collection. -/
inductive AddOutcome where
  | invalid
  | aborted
  | added (sols : List Solution)
deriving DecidableEq, Repr

/-- `submitAdd` from App.tsx; `confirmDup` is the user's answer to
`window.confirm` at the duplicate gate (ignored when no duplicate exists). -/
def submitAdd (form : AddForm) (fid now : Str) (confirmDup : Bool)
    (sols : List Solution) : AddOutcome :=
  if (jsTrim form.title).isEmpty || (jsTrim form.module).isEmpty then .invalid
  else
    let item := mkAddItem form fid now
    if sols.any (fun s => canonKey s == canonKey item) && !confirmDup then
      .aborted
    else .added (item :: sols)

/-- The state transition of the add handler: only a committed add changes
the collection. -/
def addStep (form : AddForm) (fid now : Str) (confirmDup : Bool)
    (sols : List Solution) : List Solution :=
  match submitAdd form fid now confirmDup sols with
  | .added l => l
  | _ => sols

/-- Shorthand constructor for concrete records used in concrete instances. -/
def mkSol (i t m : String) : Solution :=
  { id := i.toList, title := t.toList, module := m.toList }

/-- Six records in six distinct modules (one each). -/
def sixModuleSols : List Solution :=
  [mkSol "1" "t" "a", mkSol "2" "t" "b", mkSol "3" "t" "c",
   mkSol "4" "t" "d", mkSol "5" "t" "e", mkSol "6" "t" "f"]

/-- Two records whose modules (`"B"`, `"a"`) order differently under the
locale-aware comparison and under ordinal comparison. -/
def groupCexArts : List Solution :=
  [mkSol "1" "x" "B", mkSol "2" "y" "a"]

/-- An existing one-record collection with id `"1"`. -/
def importCexExisting : List Solution := [mkSol "1" "A" "M"]

/-- An incoming raw record carrying the already-used id `"1"` but a fresh
title. -/
def importCexRaw : RawRec :=
  { id := some "1".toList, title := some "B".toList, module := some "M".toList }

/-- A raw record whose `tags` field is an array containing an empty (falsy)
string. -/
def rawTagsCex : RawRec := { tags := some (.inl ["a".toList, []]) }

/-- A record titled with an accented letter. -/
def cafeAcc : Solution := mkSol "1" "Café" "General"

/-- The same title without the diacritic. -/
def cafePlain : Solution := mkSol "2" "Cafe" "General"

/-- A well-formed add form whose title matches `cafePlain`. -/
def addFormCafe : AddForm :=
  { module := "General".toList, title := "Cafe".toList }

/-- A well-formed add form. -/
def addFormOk : AddForm :=
  { module := "AP".toList, title := "Invoice stuck".toList,
    tagsInput := "DEV, PROD".toList }

theorem includes_iff {h n : Str} : includes h n = true ↔ n <:+: h := by
  induction h with
  | nil =>
    simp [includes, List.isPrefixOf_iff_prefix, List.infix_nil,
      List.prefix_nil]
  | cons a t ih =>
    rw [includes]
    simp [List.isPrefixOf_iff_prefix, ih, List.infix_cons_iff]

theorem sqlLikeToRegex_cons (c : Char) (p : Str) :
    sqlLikeToRegex (c :: p) = sqlLikeToRegex [c] ++ sqlLikeToRegex p := by
  simp [sqlLikeToRegex, escapeMeta, substPercent, substUnderscore,
    List.flatMap_append]

theorem isMeta_ne_pct {c : Char} (h : isMeta c = true) : c ≠ '%' := by
  intro hc; subst hc; exact absurd h (by decide)

theorem isMeta_ne_und {c : Char} (h : isMeta c = true) : c ≠ '_' := by
  intro hc; subst hc; exact absurd h (by decide)

theorem sql_single_meta {c : Char} (h : isMeta c = true) :
    sqlLikeToRegex [c] = ['\\', c] := by
  have h1 : c ≠ '%' := isMeta_ne_pct h
  have h2 : c ≠ '_' := isMeta_ne_und h
  simp [sqlLikeToRegex, escapeMeta, substPercent, substUnderscore, h, h1, h2]

theorem sql_single_plain {c : Char} (h : isMeta c = false) (h1 : c ≠ '%')
    (h2 : c ≠ '_') : sqlLikeToRegex [c] = [c] := by
  simp [sqlLikeToRegex, escapeMeta, substPercent, substUnderscore, h, h1, h2]

theorem sql_head_ne_star (p : Str) (t : Str) :
    sqlLikeToRegex p ≠ '*' :: t := by
  cases p with
  | nil => simp [sqlLikeToRegex, escapeMeta, substPercent, substUnderscore]
  | cons c p' =>
    rw [sqlLikeToRegex_cons]
    by_cases hm : isMeta c = true
    · rw [sql_single_meta hm]; intro h; exact absurd (List.head_eq_of_cons_eq h) (by decide)
    · by_cases hp : c = '%'
      · subst hp
        rw [show sqlLikeToRegex ['%'] = ['.', '*'] from by decide]
        intro h; exact absurd (List.head_eq_of_cons_eq h) (by decide)
      · by_cases hu : c = '_'
        · subst hu
          rw [show sqlLikeToRegex ['_'] = ['.'] from by decide]
          intro h; exact absurd (List.head_eq_of_cons_eq h) (by decide)
        · rw [sql_single_plain (by simpa using hm) hp hu]
          intro h
          have hc : c = '*' := List.head_eq_of_cons_eq h
          subst hc
          exact absurd hm (by decide)


theorem parseRegexF_irrel :
    ∀ (f1 : Nat) (s : Str) (f2 : Nat), s.length ≤ f1 → s.length ≤ f2 →
      parseRegexF f1 s = parseRegexF f2 s := by
  intro f1
  induction f1 with
  | zero =>
    intro s f2 h1 _
    cases s with
    | nil => cases f2 <;> rfl
    | cons c rest => simp at h1
  | succ g1 ih =>
    intro s f2 h1 h2
    cases s with
    | nil => cases f2 <;> rfl
    | cons c rest =>
      cases f2 with
      | zero => simp at h2
      | succ g2 =>
        have hr1 : rest.length ≤ g1 := by simpa using h1
        have hr2 : rest.length ≤ g2 := by simpa using h2
        by_cases hb : c = '\\'
        · subst hb
          cases rest with
          | nil => rfl
          | cons d rest2 =>
            have e1 : rest2.length ≤ g1 := by simp at hr1; omega
            have e2 : rest2.length ≤ g2 := by simp at hr2; omega
            show (parseRegexF g1 rest2).map (fun ts => .lit d :: ts)
              = (parseRegexF g2 rest2).map (fun ts => .lit d :: ts)
            rw [ih rest2 g2 e1 e2]
        · by_cases hd : c = '.'
          · subst hd
            have e1 : rest.tail.length ≤ g1 := by
              have := List.length_tail rest; omega
            have e2 : rest.tail.length ≤ g2 := by
              have := List.length_tail rest; omega
            show (if rest.head? = some '*' then
                (parseRegexF g1 rest.tail).map (fun ts => .anyStar :: ts)
              else (parseRegexF g1 rest).map (fun ts => .anyOne :: ts))
              = (if rest.head? = some '*' then
                (parseRegexF g2 rest.tail).map (fun ts => .anyStar :: ts)
              else (parseRegexF g2 rest).map (fun ts => .anyOne :: ts))
            by_cases hs : rest.head? = some '*'
            · rw [if_pos hs, if_pos hs, ih rest.tail g2 e1 e2]
            · rw [if_neg hs, if_neg hs, ih rest g2 hr1 hr2]
          · simp only [parseRegexF, hb, hd, if_false, ite_false]
            by_cases hm : isMeta c
            · simp [hm]
            · simp [hm, ih rest g2 hr1 hr2]

theorem parseRegex_backslash (d : Char) (s : Str) :
    parseRegex ('\\' :: d :: s) = (parseRegex s).map (fun ts => .lit d :: ts) := by
  show (parseRegexF (s.length + 1) s).map (fun ts => .lit d :: ts)
    = (parseRegexF s.length s).map (fun ts => .lit d :: ts)
  rw [parseRegexF_irrel (s.length + 1) s s.length (by omega) (by omega)]

theorem parseRegex_dotstar (s : Str) :
    parseRegex ('.' :: '*' :: s) = (parseRegex s).map (fun ts => .anyStar :: ts) := by
  show (if ('*' :: s).head? = some '*' then
      (parseRegexF (s.length + 1) ('*' :: s).tail).map (fun ts => .anyStar :: ts)
    else (parseRegexF (s.length + 1) ('*' :: s)).map (fun ts => .anyOne :: ts))
    = (parseRegexF s.length s).map (fun ts => .anyStar :: ts)
  rw [if_pos (show ('*' :: s).head? = some '*' from rfl)]
  show (parseRegexF (s.length + 1) s).map (fun ts => .anyStar :: ts) = _
  rw [parseRegexF_irrel (s.length + 1) s s.length (by omega) (by omega)]

theorem parseRegex_dot_cons {d : Char} (s : Str) (h : d ≠ '*') :
    parseRegex ('.' :: d :: s) =
      (parseRegex (d :: s)).map (fun ts => .anyOne :: ts) := by
  show (if (d :: s).head? = some '*' then
      (parseRegexF (s.length + 1) (d :: s).tail).map (fun ts => .anyStar :: ts)
    else (parseRegexF (s.length + 1) (d :: s)).map (fun ts => .anyOne :: ts))
    = (parseRegex (d :: s)).map (fun ts => .anyOne :: ts)
  rw [if_neg (by simp [h])]
  rfl

theorem parseRegex_dot_nil : parseRegex ['.'] = some [.anyOne] := by decide

theorem parseRegex_plain {c : Char} (s : Str) (h1 : c ≠ '\\') (h2 : c ≠ '.')
    (h3 : isMeta c = false) :
    parseRegex (c :: s) = (parseRegex s).map (fun ts => .lit c :: ts) := by
  simp only [parseRegex, List.length_cons, parseRegexF, h1, h2, h3,
    if_false, ite_false, Bool.false_eq_true]

theorem parseRegex_sql (p : Str) :
    parseRegex (sqlLikeToRegex p) = some (globToks p) := by
  induction p with
  | nil => rfl
  | cons c p' ih =>
    rw [sqlLikeToRegex_cons]
    by_cases hm : isMeta c = true
    · rw [sql_single_meta hm]
      show parseRegex ('\\' :: c :: sqlLikeToRegex p') = _
      rw [parseRegex_backslash, ih]
      simp [globToks, isMeta_ne_pct hm, isMeta_ne_und hm]
    · by_cases hp : c = '%'
      · subst hp
        rw [show sqlLikeToRegex ['%'] = ['.', '*'] from by decide]
        show parseRegex ('.' :: '*' :: sqlLikeToRegex p') = _
        rw [parseRegex_dotstar, ih]
        simp [globToks]
      · by_cases hu : c = '_'
        · subst hu
          rw [show sqlLikeToRegex ['_'] = ['.'] from by decide]
          cases hs : sqlLikeToRegex p' with
          | nil =>
            rw [hs] at ih
            have hg : globToks p' = [] := by
              have h0 : parseRegex ([] : Str) = some [] := rfl
              rw [h0] at ih
              exact (Option.some.injEq _ _ ▸ ih).symm
            have hp' : p' = [] := List.map_eq_nil_iff.mp hg
            subst hp'
            simp [parseRegex_dot_nil, globToks]
          | cons d t =>
            have hd : d ≠ '*' := by
              intro h; subst h; exact sql_head_ne_star p' t hs
            show parseRegex ('.' :: d :: t) = _
            rw [parseRegex_dot_cons t hd, ← hs, ih]
            simp [globToks]
        · have hb : c ≠ '\\' := by
            intro h; subst h; exact absurd hm (by decide)
          have hd : c ≠ '.' := by
            intro h; subst h; exact absurd hm (by decide)
          rw [sql_single_plain (by simpa using hm) hp hu]
          show parseRegex (c :: sqlLikeToRegex p') = _
          rw [parseRegex_plain _ hb hd (by simpa using hm), ih]
          simp [globToks, hp, hu]

theorem suffAny_congr {f g : Str → Bool} (hfg : ∀ x, f x = g x) :
    ∀ h, suffAny f h = suffAny g h := by
  intro h
  induction h with
  | nil => simp [suffAny, hfg]
  | cons c t ih => simp [suffAny, hfg, ih]

theorem tokMatchPre_globToks (p : Str) :
    ∀ h, tokMatchPre (globToks p) h = globMatchPre p h := by
  induction p with
  | nil => intro h; rfl
  | cons c p' ih =>
    intro h
    by_cases hp : c = '%'
    · subst hp
      show tokMatchPre (.anyStar :: globToks p') h = _
      rw [show globMatchPre ('%' :: p') h = suffAny (globMatchPre p') h from by
        simp [globMatchPre]]
      exact suffAny_congr ih h
    · by_cases hu : c = '_'
      · subst hu
        show tokMatchPre (.anyOne :: globToks p') h = _
        cases h with
        | nil => simp [tokMatchPre, globMatchPre]
        | cons d t => simp [tokMatchPre, globMatchPre, ih]
      · have hgt : globToks (c :: p') = .lit c :: globToks p' := by
          simp [globToks, hp, hu]
        rw [hgt]
        cases h with
        | nil => simp [tokMatchPre, globMatchPre, hp, hu]
        | cons d t => simp [tokMatchPre, globMatchPre, hp, hu, ih]

/-- C2: for every query whose trimmed form contains `%` or `_`, the compiled
matcher is SQL-LIKE glob matching — unanchored, case-insensitive — of the
normalized trimmed query against the normalized haystack: metacharacters
are escaped before wildcard substitution (so they match literally), `%`
matches any sequence including the empty one, and `_` matches exactly one
character. -/
theorem wildcard_query_glob_semantics (hay q : Str)
    (hw : (jsTrim q).any isWildcard = true) :
    matchesQuery hay q
      = globSearch (normalizeText (jsTrim q)) (normalizeText hay) := by
  unfold matchesQuery
  have hne : (jsTrim q).isEmpty = false := by
    cases hq : jsTrim q with
    | nil => rw [hq] at hw; simp at hw
    | cons a t => simp [List.isEmpty]
  simp only [hne, hw, Bool.false_eq_true, if_false, if_true, ite_false,
    ite_true]
  unfold regexTest
  rw [parseRegex_sql]
  exact suffAny_congr (tokMatchPre_globToks _) _

theorem wildcard_query_glob_semantics_witness :
    ((jsTrim "%invoi%err%".toList).any isWildcard = true) ∧
    matchesQuery "AP Invoice error".toList "%invoi%err%".toList
      = globSearch (normalizeText (jsTrim "%invoi%err%".toList))
          (normalizeText "AP Invoice error".toList) :=
  ⟨by decide, wildcard_query_glob_semantics _ _ (by decide)⟩

/-- C1 (amended): for every query whose trimmed form contains no wildcard
marker, the matcher holds iff the normalized **trimmed** query is a
substring of the normalized haystack; an empty or whitespace-only query
always matches.  (As frozen, with `normalize(q)` in place of
`normalize(trim(q))`, the claim fails — see the counterexample.) -/
theorem plain_query_substring_equiv (hay q : Str)
    (hnw : (jsTrim q).any isWildcard = false) :
    (matchesQuery hay q = true ↔
      normalizeText (jsTrim q) <:+: normalizeText hay) ∧
    (jsTrim q = [] → matchesQuery hay q = true) := by
  constructor
  · unfold matchesQuery
    cases hq : (jsTrim q).isEmpty with
    | true =>
      have : jsTrim q = [] := List.isEmpty_iff.mp hq
      simp [hq, this, List.nil_infix, normalizeText]
    | false =>
      simp only [hq, hnw, Bool.false_eq_true, if_false, ite_false]
      exact includes_iff
  · intro h
    unfold matchesQuery
    simp [h, List.isEmpty]

theorem plain_query_substring_equiv_witness :
    ((jsTrim "voice er".toList).any isWildcard = false) ∧
    ((matchesQuery "AP Invoice error".toList "voice er".toList = true ↔
      normalizeText (jsTrim "voice er".toList)
        <:+: normalizeText "AP Invoice error".toList) ∧
    (jsTrim "voice er".toList = [] →
      matchesQuery "AP Invoice error".toList "voice er".toList = true)) :=
  ⟨by decide, plain_query_substring_equiv _ _ (by decide)⟩

/-- C1 (counterexample to the claim as frozen): for the query `" ab "` and
a record haystack `"ab"`, the matcher succeeds (the code trims the query
before the substring test) but `normalize(q)` — with its surrounding
spaces — is not a substring of the normalized haystack, so
`matches = contains(normalize(haystack), normalize(q))` fails. -/
theorem plain_query_untrimmed_cex :
    matchesQuery "ab".toList " ab ".toList = true ∧
    ¬ (normalizeText " ab ".toList <:+: normalizeText "ab".toList) := by
  constructor
  · decide
  · rw [← includes_iff]
    decide

/-- C3: the import merge returns `existing` followed by exactly those
incoming records whose canonical key is absent from the canonical keys of
`existing` (in their incoming order); hence `existing` is a prefix of the
result, the result is never shorter than `existing`, and every appended
record's canonical key was not present in `existing`. -/
theorem import_merge_spec (sols incoming : List Solution) :
    mergeImport sols incoming
      = sols ++ incoming.filter
          (fun s => !((sols.map canonKey).contains (canonKey s))) ∧
    sols <+: mergeImport sols incoming ∧
    sols.length ≤ (mergeImport sols incoming).length ∧
    (∀ s ∈ mergeImport sols incoming,
      s ∈ sols ∨ (s ∈ incoming ∧ canonKey s ∉ sols.map canonKey)) := by
  refine ⟨rfl, ⟨_, rfl⟩, ?_, ?_⟩
  · simp [mergeImport]
  · intro s hs
    simp only [mergeImport] at hs
    rcases List.mem_append.mp hs with h | h
    · exact Or.inl h
    · have hm := List.mem_filter.mp h
      refine Or.inr ⟨hm.1, ?_⟩
      intro hmem
      have hc : (sols.map canonKey).contains (canonKey s) = true :=
        List.elem_iff.mpr hmem
      rw [hc] at hm
      exact absurd hm.2 (by simp)

theorem import_merge_spec_witness :
    cafePlain ∈ mergeImport [cafeAcc] [cafePlain] ∧
    (cafePlain ∈ [cafeAcc] ∨
      (cafePlain ∈ [cafePlain] ∧
        canonKey cafePlain ∉ [cafeAcc].map canonKey)) :=
  ⟨by decide,
   (import_merge_spec [cafeAcc] [cafePlain]).2.2.2 cafePlain (by decide)⟩

/-- C4: an import whose content is not valid JSON or whose top-level value
is not an array fails with `ParseError`, and the collection is left exactly
as it was. -/
theorem import_parse_error (inp : ImportInput) (fresh : Nat → Str)
    (now : Str) (sols : List Solution)
    (h : inp = .invalidJson ∨ inp = .nonArray) :
    handleImport inp fresh now sols = .error .parseError ∧
    importStep inp fresh now sols = sols := by
  rcases h with h | h <;> subst h <;> exact ⟨rfl, rfl⟩

theorem import_parse_error_witness :
    (ImportInput.nonArray = ImportInput.invalidJson ∨
      ImportInput.nonArray = ImportInput.nonArray) ∧
    (handleImport .nonArray (fun _ => []) [] importCexExisting
        = .error .parseError ∧
      importStep .nonArray (fun _ => []) [] importCexExisting
        = importCexExisting) :=
  ⟨Or.inr rfl, import_parse_error _ _ _ _ (Or.inr rfl)⟩

/-- C5: `submitAdd` is rejected exactly when the trimmed title or the
trimmed module is empty (leaving the collection unchanged), and every
committed add prepends the newly constructed record to the unchanged prior
collection. -/
theorem add_validation_and_prepend (form : AddForm) (fid now : Str)
    (conf : Bool) (sols : List Solution) :
    (submitAdd form fid now conf sols = .invalid ↔
      jsTrim form.title = [] ∨ jsTrim form.module = []) ∧
    (submitAdd form fid now conf sols = .invalid →
      addStep form fid now conf sols = sols) ∧
    (∀ l, submitAdd form fid now conf sols = .added l →
      l = mkAddItem form fid now :: sols) := by
  have hiff : ((jsTrim form.title).isEmpty || (jsTrim form.module).isEmpty)
      = true ↔ (jsTrim form.title = [] ∨ jsTrim form.module = []) := by
    simp [List.isEmpty_iff]
  by_cases hv : ((jsTrim form.title).isEmpty
      || (jsTrim form.module).isEmpty) = true
  · have hs : submitAdd form fid now conf sols = .invalid := by
      unfold submitAdd; rw [if_pos hv]
    refine ⟨?_, ?_, ?_⟩
    · rw [hs]; exact iff_of_true rfl (hiff.mp hv)
    · intro _; unfold addStep; rw [hs]
    · intro l hl; rw [hs] at hl; simp at hl
  · have hs : submitAdd form fid now conf sols
        = if sols.any (fun s =>
              canonKey s == canonKey (mkAddItem form fid now)) && !conf then
            .aborted
          else .added (mkAddItem form fid now :: sols) := by
      unfold submitAdd; rw [if_neg hv]
    refine ⟨?_, ?_, ?_⟩
    · rw [hs]
      constructor
      · intro h; split at h <;> simp at h
      · intro h; exact absurd (hiff.mpr h) hv
    · intro h; rw [hs] at h; split at h <;> simp at h
    · intro l hl
      rw [hs] at hl
      split at hl
      · simp at hl
      · cases hl; rfl

theorem add_validation_and_prepend_witness :
    submitAdd addFormOk "9".toList "now".toList true []
      = .added [mkAddItem addFormOk "9".toList "now".toList] ∧
    [mkAddItem addFormOk "9".toList "now".toList]
      = mkAddItem addFormOk "9".toList "now".toList :: [] :=
  ⟨by decide,
   (add_validation_and_prepend addFormOk "9".toList "now".toList true
      []).2.2 _ (by decide)⟩

theorem sortInsert_perm (lt : α → α → Bool) (x : α) (l : List α) :
    (sortInsert lt x l).Perm (x :: l) := by
  induction l with
  | nil => exact List.Perm.refl _
  | cons y ys ih =>
    rw [sortInsert]
    split
    · exact ((ih.cons y).trans (List.Perm.swap x y ys))
    · exact List.Perm.refl _

theorem stableSort_perm (lt : α → α → Bool) (l : List α) :
    (stableSort lt l).Perm l := by
  induction l with
  | nil => exact List.Perm.refl _
  | cons x xs ih =>
    exact (sortInsert_perm lt x (stableSort lt xs)).trans (ih.cons x)

theorem sortInsert_pairwise {R : α → α → Prop} {lt : α → α → Bool}
    (h1 : ∀ a b, lt a b = true → R a b)
    (h2 : ∀ a b, lt a b = false → R b a)
    (ht : ∀ a b c, R a b → R b c → R a c)
    (x : α) (l : List α) (hl : l.Pairwise R) :
    (sortInsert lt x l).Pairwise R := by
  induction l with
  | nil => simp [sortInsert]
  | cons y ys ih =>
    rw [List.pairwise_cons] at hl
    rw [sortInsert]
    split
    · rename_i hlt
      rw [List.pairwise_cons]
      refine ⟨?_, ih hl.2⟩
      intro z hz
      rcases List.mem_cons.mp ((sortInsert_perm lt x ys).mem_iff.mp hz) with
        hzx | hzy
      · subst hzx; exact h1 _ _ hlt
      · exact hl.1 z hzy
    · rename_i hlt
      have hxy : R x y := h2 _ _ (Bool.not_eq_true _ ▸ hlt)
      rw [List.pairwise_cons]
      refine ⟨?_, List.pairwise_cons.mpr hl⟩
      intro z hz
      rcases List.mem_cons.mp hz with hzy | hzys
      · subst hzy; exact hxy
      · exact ht _ _ _ hxy (hl.1 z hzys)

theorem stableSort_pairwise {R : α → α → Prop} {lt : α → α → Bool}
    (h1 : ∀ a b, lt a b = true → R a b)
    (h2 : ∀ a b, lt a b = false → R b a)
    (ht : ∀ a b c, R a b → R b c → R a c)
    (l : List α) : (stableSort lt l).Pairwise R := by
  induction l with
  | nil => simp [stableSort]
  | cons x xs ih => exact sortInsert_pairwise h1 h2 ht x _ ih

theorem lexLeN_total : ∀ a b : List Nat,
    lexLeN a b = true ∨ lexLeN b a = true := by
  intro a
  induction a with
  | nil => intro b; exact Or.inl rfl
  | cons x xs ih =>
    intro b
    cases b with
    | nil => exact Or.inr rfl
    | cons y ys =>
      simp only [lexLeN]
      rcases Nat.lt_trichotomy x y with h | h | h
      · left; rw [if_pos h]
      · subst h
        simp only [lt_irrefl, if_false, ite_false]
        rcases ih ys with h | h
        · left; simpa using h
        · right; simpa using h
      · right; rw [if_pos h]

theorem lexLtN_eq_not_lexLeN : ∀ a b : List Nat,
    lexLtN a b = !lexLeN b a := by
  intro a
  induction a with
  | nil =>
    intro b
    cases b <;> simp [lexLtN, lexLeN]
  | cons x xs ih =>
    intro b
    cases b with
    | nil => simp [lexLtN, lexLeN]
    | cons y ys =>
      simp only [lexLtN, lexLeN]
      rcases Nat.lt_trichotomy x y with h | h | h
      · rw [if_pos h, if_neg (by omega), if_pos h]
        simp
      · subst h
        simp only [lt_irrefl, if_false, ite_false]
        exact ih ys
      · rw [if_neg (by omega), if_pos h, if_pos h]
        simp

theorem lexLeN_trans : ∀ a b c : List Nat,
    lexLeN a b = true → lexLeN b c = true → lexLeN a c = true := by
  intro a
  induction a with
  | nil => intro b c _ _; rfl
  | cons x xs ih =>
    intro b c hab hbc
    cases b with
    | nil => simp [lexLeN] at hab
    | cons y ys =>
      cases c with
      | nil => simp [lexLeN] at hbc
      | cons z zs =>
        simp only [lexLeN] at hab hbc ⊢
        rcases Nat.lt_trichotomy x z with h | h | h
        · rw [if_pos h]
        · subst h
          rw [if_neg (lt_irrefl x), if_neg (lt_irrefl x)]
          rcases Nat.lt_trichotomy x y with hxy | hxy | hxy
          · rw [if_neg (by omega), if_pos (by omega)] at hbc
            simp at hbc
          · subst hxy
            rw [if_neg (lt_irrefl x), if_neg (lt_irrefl x)] at hab hbc
            exact ih ys zs hab hbc
          · rw [if_neg (by omega), if_pos hxy] at hab
            simp at hab
        · exfalso
          rcases Nat.lt_trichotomy x y with hxy | hxy | hxy
          · rw [if_pos hxy] at hab
            rcases Nat.lt_trichotomy y z with hyz | hyz | hyz
            · omega
            · omega
            · rw [if_neg (by omega), if_pos hyz] at hbc; simp at hbc
          · subst hxy
            rw [if_neg (by omega), if_pos (by omega)] at hbc
            simp at hbc
          · rw [if_neg (by omega), if_pos hxy] at hab; simp at hab

theorem localeLt_le {a b : Str} (h : localeLt a b = true) :
    localeLe a b = true := by
  unfold localeLt at h
  unfold localeLe
  rw [lexLtN_eq_not_lexLeN] at h
  rcases lexLeN_total (localeKey a) (localeKey b) with h2 | h2
  · exact h2
  · rw [h2] at h; simp at h

theorem localeLt_false_le {a b : Str} (h : localeLt a b = false) :
    localeLe b a = true := by
  unfold localeLt at h
  unfold localeLe
  rw [lexLtN_eq_not_lexLeN] at h
  simpa using h


theorem mapUpsert_fst {Beta : Type} (k : Str) (f : Beta → Beta) (v : Beta)
    (acc : List (Str × Beta)) :
    (mapUpsert k f v acc).map Prod.fst
      = if acc.any (fun e => e.1 == k) then acc.map Prod.fst
        else acc.map Prod.fst ++ [k] := by
  unfold mapUpsert
  split
  · rw [List.map_map]
    exact List.map_congr_left (fun e _ => by
      cases e with
      | mk m b =>
        by_cases hm : (m == k) = true
        · simp [Function.comp, hm]
        · simp [Function.comp, hm])
  · rw [List.map_append]
    rfl

theorem any_fst_false_not_mem {Beta : Type} {k : Str}
    {acc : List (Str × Beta)} (h : acc.any (fun e => e.1 == k) = false) :
    k ∉ acc.map Prod.fst := by
  intro hmem
  rcases List.mem_map.mp hmem with ⟨e, he, hfst⟩
  have : acc.any (fun e => e.1 == k) = true :=
    List.any_eq_true.mpr ⟨e, he, by simp [hfst]⟩
  rw [this] at h
  exact absurd h (by simp)

theorem any_fst_true_mem {Beta : Type} {k : Str}
    {acc : List (Str × Beta)} (h : acc.any (fun e => e.1 == k) = true) :
    k ∈ acc.map Prod.fst := by
  rcases List.any_eq_true.mp h with ⟨e, he, hk⟩
  exact List.mem_map.mpr ⟨e, he, (eq_of_beq hk)⟩

theorem mapUpsert_fst_nodup {Beta : Type} {k : Str} {f : Beta → Beta}
    {v : Beta} {acc : List (Str × Beta)}
    (h : (acc.map Prod.fst).Nodup) :
    ((mapUpsert k f v acc).map Prod.fst).Nodup := by
  rw [mapUpsert_fst]
  split
  · exact h
  · rename_i hany
    rw [List.nodup_append]
    refine ⟨h, List.nodup_singleton k, ?_⟩
    intro x hx hxk
    rw [List.mem_singleton.mp hxk] at hx
    exact any_fst_false_not_mem (Bool.eq_false_iff.mpr hany) hx

theorem mapUpsert_group_bucket (a : Solution)
    (acc : List (Str × List Solution)) (processed : List Solution)
    (hbucket : ∀ m items, (m, items) ∈ acc →
        items = processed.filter (fun b => b.module == m))
    (hcover : ∀ b ∈ processed, b.module ∈ acc.map Prod.fst) :
    ∀ m items, (m, items) ∈ mapUpsert a.module (· ++ [a]) [a] acc →
      items = (processed ++ [a]).filter (fun b => b.module == m) := by
  intro m items hm
  unfold mapUpsert at hm
  split at hm
  · rcases List.mem_map.mp hm with ⟨e, he, hupd⟩
    cases e with
    | mk m0 its0 =>
      by_cases hm0 : (m0 == a.module) = true
      · rw [if_pos hm0] at hupd
        have hmm : m0 = m := congrArg Prod.fst hupd
        have hii : its0 ++ [a] = items := congrArg Prod.snd hupd
        subst hmm
        rw [← hii, hbucket m0 its0 he, List.filter_append]
        have hma : (a.module == m0) = true := by
          rw [eq_of_beq hm0]; exact beq_self_eq_true _
        simp [List.filter, hma]
      · rw [if_neg hm0] at hupd
        have hmm : m0 = m := congrArg Prod.fst hupd
        have hii : its0 = items := congrArg Prod.snd hupd
        subst hmm
        rw [← hii, hbucket m0 its0 he, List.filter_append]
        have hma : (a.module == m0) = false := by
          apply Bool.eq_false_iff.mpr
          intro hc
          exact hm0 (by rw [(eq_of_beq hc).symm]; exact beq_self_eq_true _)
        simp [List.filter, hma]
  · rename_i hany
    have hany' : (acc.any fun e => e.1 == a.module) = false :=
      Bool.eq_false_iff.mpr hany
    rcases List.mem_append.mp hm with hin | hnew
    · rw [hbucket m items hin, List.filter_append]
      have hma : (a.module == m) = false := by
        apply Bool.eq_false_iff.mpr
        intro hc
        exact any_fst_false_not_mem hany'
          ((eq_of_beq hc) ▸ List.mem_map.mpr ⟨(m, items), hin, rfl⟩)
      simp [List.filter, hma]
    · have heq : (m, items) = (a.module, [a]) := List.mem_singleton.mp hnew
      have h1 : m = a.module := congrArg Prod.fst heq
      have h2 : items = [a] := congrArg Prod.snd heq
      rw [h2, List.filter_append]
      have hemp : processed.filter (fun b => b.module == m) = [] := by
        rw [List.filter_eq_nil_iff]
        intro b hb hbm
        exact any_fst_false_not_mem hany'
          (by rw [← h1, ← eq_of_beq hbm]; exact hcover b hb)
      have hma : (a.module == m) = true := by
        rw [h1]; exact beq_self_eq_true _
      simp [List.filter, hma, hemp]

theorem groupFold_aux (l : List Solution) :
    ∀ (acc : List (Str × List Solution)) (processed : List Solution),
    ((acc.map Prod.fst).Nodup) →
    (∀ m items, (m, items) ∈ acc →
        items = processed.filter (fun b => b.module == m)) →
    (∀ b ∈ processed, b.module ∈ acc.map Prod.fst) →
    (((l.foldl (fun acc a => mapUpsert a.module (· ++ [a]) [a] acc)
        acc).map Prod.fst).Nodup ∧
     (∀ m items,
        (m, items) ∈ l.foldl (fun acc a => mapUpsert a.module (· ++ [a]) [a] acc) acc →
        items = (processed ++ l).filter (fun b => b.module == m)) ∧
     (∀ b ∈ processed ++ l,
        b.module ∈ (l.foldl (fun acc a => mapUpsert a.module (· ++ [a]) [a] acc)
          acc).map Prod.fst)) := by
  induction l with
  | nil =>
    intro acc processed hnd hbucket hcover
    refine ⟨hnd, ?_, ?_⟩
    · intro m items hm
      rw [List.append_nil]
      exact hbucket m items hm
    · intro b hb
      rw [List.append_nil] at hb
      exact hcover b hb
  | cons a l' ih =>
    intro acc processed hnd hbucket hcover
    have hmain := ih (mapUpsert a.module (· ++ [a]) [a] acc)
      (processed ++ [a]) (mapUpsert_fst_nodup hnd)
      (mapUpsert_group_bucket a acc processed hbucket hcover) ?_
    · refine ⟨hmain.1, ?_, ?_⟩
      · intro m items hm
        have := hmain.2.1 m items hm
        rwa [List.append_assoc, List.singleton_append] at this
      · intro b hb
        apply hmain.2.2
        rw [List.append_assoc, List.singleton_append]
        exact hb
    · intro b hb
      rw [mapUpsert_fst]
      rcases List.mem_append.mp hb with hbp | hba
      · split
        · exact hcover b hbp
        · exact List.mem_append_left _ (hcover b hbp)
      · rw [List.mem_singleton.mp hba]
        split
        · rename_i hany; exact any_fst_true_mem hany
        · exact List.mem_append_right _ (List.mem_singleton.mpr rfl)

theorem groupFold_spec (arts : List Solution) :
    ((groupFold arts).map Prod.fst).Nodup ∧
    (∀ m items, (m, items) ∈ groupFold arts →
        items = arts.filter (fun b => b.module == m)) ∧
    (∀ b ∈ arts, b.module ∈ (groupFold arts).map Prod.fst) := by
  have h := groupFold_aux arts [] [] (by simp) (by simp) (by simp)
  unfold groupFold
  refine ⟨h.1, ?_, ?_⟩
  · intro m items hm
    have := h.2.1 m items hm
    rwa [List.nil_append] at this
  · intro b hb
    exact h.2.2 b (by rwa [List.nil_append])

/-- C6 (amended): for every records list, module filter and query, the
grouped output is a partition of `inView` by module — bucket names are
pairwise distinct, each bucket holds exactly the `inView` records of its
module in their `inView` order, and every `inView` record's module has a
bucket — and the buckets are sorted by module name under the locale-aware
comparison (`localeCompare`), not under case-sensitive ordinal comparison
(see the counterexample). -/
theorem grouped_partition_locale_sorted (sols : List Solution)
    (filt q : Str) :
    (((groupedArticles (solutionsInView sols filt q)).map Prod.fst).Nodup) ∧
    (∀ m items,
        (m, items) ∈ groupedArticles (solutionsInView sols filt q) →
        items = (solutionsInView sols filt q).filter
          (fun a => a.module == m)) ∧
    (∀ a ∈ solutionsInView sols filt q,
        a.module ∈ (groupedArticles (solutionsInView sols filt q)).map
          Prod.fst) ∧
    ((groupedArticles (solutionsInView sols filt q)).map Prod.fst).Pairwise
      (fun x y => localeLe x y = true) := by
  have hg := groupFold_spec (solutionsInView sols filt q)
  have hperm : (groupedArticles (solutionsInView sols filt q)).Perm
      (groupFold (solutionsInView sols filt q)) := stableSort_perm _ _
  have hpermf :
      ((groupedArticles (solutionsInView sols filt q)).map Prod.fst).Perm
        ((groupFold (solutionsInView sols filt q)).map Prod.fst) :=
    hperm.map _
  refine ⟨hpermf.nodup_iff.mpr hg.1, ?_, ?_, ?_⟩
  · intro m items hm
    exact hg.2.1 m items (hperm.mem_iff.mp hm)
  · intro a ha
    exact hpermf.mem_iff.mpr (hg.2.2 a ha)
  · have hpw : (groupedArticles (solutionsInView sols filt q)).Pairwise
        (fun e1 e2 => localeLe e1.1 e2.1 = true) := by
      apply stableSort_pairwise
        (fun a b hab => localeLt_le hab)
        (fun a b hab => localeLt_false_le hab)
      intro a b c h1 h2
      unfold localeLe at h1 h2 ⊢
      exact lexLeN_trans _ _ _ h1 h2
    exact List.pairwise_map.mpr hpw

theorem grouped_partition_locale_sorted_witness :
    (("a".toList, [mkSol "2" "y" "a"])
        ∈ groupedArticles (solutionsInView groupCexArts "All".toList [])) ∧
    [mkSol "2" "y" "a"]
      = (solutionsInView groupCexArts "All".toList []).filter
          (fun a => a.module == "a".toList) :=
  ⟨by decide,
   (grouped_partition_locale_sorted groupCexArts "All".toList []).2.1
     "a".toList [mkSol "2" "y" "a"] (by decide)⟩

/-- C6 (counterexample to the frozen ordering clause): with modules `"B"`
and `"a"` in view, the buckets come out in the order `["a", "B"]` (the
locale-aware `localeCompare` puts `"a"` before `"B"`), which violates
case-sensitive ordinal ordering, under which `"B" (U+0042)` precedes
`"a" (U+0061)`. -/
theorem grouped_ordinal_cex :
    (groupedArticles (solutionsInView groupCexArts "All".toList [])).map
        Prod.fst = ["a".toList, "B".toList] ∧
    ordLe "a".toList "B".toList = false := by
  exact ⟨by decide, by decide⟩

theorem upd_tally_sum (m : Str) :
    ∀ acc : List (Str × Nat), (acc.map Prod.fst).Nodup →
      acc.any (fun e => e.1 == m) = true →
      ((acc.map (fun e => if e.1 == m then (e.1, e.2 + 1) else e)).map
          Prod.snd).sum
        = (acc.map Prod.snd).sum + 1 := by
  intro acc
  induction acc with
  | nil => intro _ hany; simp at hany
  | cons e es ihe =>
    intro hnd hany
    rw [List.map_cons, List.nodup_cons] at hnd
    cases he : (e.1 == m) with
    | true =>
      have hes : es.map (fun e => if e.1 == m then (e.1, e.2 + 1) else e)
          = es := by
        have : ∀ e' ∈ es, (if e'.1 == m then (e'.1, e'.2 + 1) else e') = e' := by
          intro e' he'
          have hne : e'.1 ≠ m := by
            intro hc
            exact hnd.1 (List.mem_map.mpr ⟨e', he',
              by rw [hc]; exact (eq_of_beq he).symm⟩)
          rw [if_neg (by simpa using hne)]
        calc es.map (fun e => if e.1 == m then (e.1, e.2 + 1) else e)
            = es.map id := List.map_congr_left (fun x hx => by
                rw [this x hx]; rfl)
          _ = es := List.map_id es
      rw [List.map_cons, hes]
      simp only [he, ite_true, List.map_cons, List.sum_cons]
      omega
    | false =>
      have hany' : es.any (fun e => e.1 == m) = true := by
        rw [List.any_cons, he] at hany
        simpa using hany
      have hh := ihe hnd.2 hany'
      simp only [List.map_cons, List.sum_cons,
        if_neg (show ¬((e.1 == m) = true) by simp [he])]
      omega

theorem mapUpsert_tally_sum {acc : List (Str × Nat)} (m : Str)
    (hnd : (acc.map Prod.fst).Nodup) :
    ((mapUpsert m (· + 1) 1 acc).map Prod.snd).sum
      = (acc.map Prod.snd).sum + 1 := by
  unfold mapUpsert
  split
  · rename_i hany
    exact upd_tally_sum m acc hnd hany
  · simp

theorem tally_aux :
    ∀ (l : List Str) (acc : List (Str × Nat)),
      (acc.map Prod.fst).Nodup →
      (((l.foldl (fun acc m => mapUpsert m (· + 1) 1 acc) acc).map
          Prod.snd).sum = (acc.map Prod.snd).sum + l.length) ∧
      (((l.foldl (fun acc m => mapUpsert m (· + 1) 1 acc) acc).map
          Prod.fst).Nodup) := by
  intro l
  induction l with
  | nil => intro acc hnd; exact ⟨by simp, hnd⟩
  | cons m l' ih =>
    intro acc hnd
    have hstep := ih (mapUpsert m (· + 1) 1 acc) (mapUpsert_fst_nodup hnd)
    refine ⟨?_, hstep.2⟩
    rw [List.foldl_cons, hstep.1, mapUpsert_tally_sum m hnd]
    simp; omega

theorem tallyModules_sum (ms : List Str) :
    ((tallyModules ms).map Prod.snd).sum = ms.length := by
  have := (tally_aux ms [] (by simp)).1
  unfold tallyModules
  simpa using this

theorem moduleCounts_sum (inView : List Solution) :
    ((moduleCounts inView).map Prod.snd).sum = inView.length := by
  unfold moduleCounts
  have hperm := (stableSort_perm (fun a b : Str × Nat => b.2 < a.2)
    (tallyModules (inView.map (·.module)))).map Prod.snd
  rw [hperm.sum_eq, tallyModules_sum, List.length_map]

theorem jsRound_err (q : ℚ) : |((jsRound q : ℤ) : ℚ) - q| ≤ 1 / 2 := by
  unfold jsRound
  have h1 : ((⌊q + 1/2⌋ : ℤ) : ℚ) ≤ q + 1/2 := Int.floor_le _
  have h2 : q + 1/2 < ((⌊q + 1/2⌋ : ℤ) : ℚ) + 1 := Int.lt_floor_add_one _
  rw [abs_le]
  constructor <;> linarith

theorem round_sum_err : ∀ l : List ℚ,
    |(l.map (fun q => ((jsRound q : ℤ) : ℚ))).sum - l.sum|
      ≤ (l.length : ℚ) / 2 := by
  intro l
  induction l with
  | nil => simp
  | cons q l ih =>
    have hq := jsRound_err q
    simp only [List.map_cons, List.sum_cons, List.length_cons]
    push_cast
    calc |((jsRound q : ℤ) : ℚ)
            + (l.map (fun q => ((jsRound q : ℤ) : ℚ))).sum - (q + l.sum)|
        = |(((jsRound q : ℤ) : ℚ) - q)
            + ((l.map (fun q => ((jsRound q : ℤ) : ℚ))).sum - l.sum)| := by
          ring_nf
      _ ≤ |((jsRound q : ℤ) : ℚ) - q|
            + |(l.map (fun q => ((jsRound q : ℤ) : ℚ))).sum - l.sum| :=
          abs_add _ _
      _ ≤ 1/2 + (l.length : ℚ) / 2 := add_le_add hq ih
      _ = ((l.length : ℚ) + 1) / 2 := by ring

theorem sum_div_mul (l : List (Str × Nat)) (T : ℚ) :
    (l.map (fun mc => (mc.2 : ℚ) / T * 100)).sum
      = ((l.map (fun mc => (mc.2 : ℚ))).sum) / T * 100 := by
  induction l with
  | nil => simp
  | cons e l ih =>
    simp only [List.map_cons, List.sum_cons, ih]
    ring

/-- C7 (amended): each displayed percentage is
`round(count / totalInView * 100)` (that is `percentages`' definition), all
percentages are `0` when the filtered view is empty, and when it is not the
percentages sum to `100` within ±`m/2`, where `m` is the number of distinct
modules in view (each rounding contributes at most `1/2`; the frozen ±1
bound fails — see the counterexample with six modules, whose percentages
sum to 102). -/
theorem percentage_rounding (sols : List Solution) (filt q : Str) :
    ((solutionsInView sols filt q).length = 0 →
      ∀ p ∈ percentages (solutionsInView sols filt q), p = 0) ∧
    (0 < (solutionsInView sols filt q).length →
      |((percentages (solutionsInView sols filt q)).sum : ℚ) - 100|
        ≤ ((moduleCounts (solutionsInView sols filt q)).length : ℚ) / 2) := by
  constructor
  · intro h p hp
    unfold percentages at hp
    rcases List.mem_map.mp hp with ⟨mc, _, hmc⟩
    rw [if_pos h] at hmc
    omega
  · intro hT
    have hT0 : ((solutionsInView sols filt q).length : ℚ) ≠ 0 := by
      exact_mod_cast Nat.pos_iff_ne_zero.mp hT
    have hpe : percentages (solutionsInView sols filt q)
        = (moduleCounts (solutionsInView sols filt q)).map
            (fun mc => jsRound ((mc.2 : ℚ)
              / ((solutionsInView sols filt q).length : ℚ) * 100)) := by
      unfold percentages
      exact List.map_congr_left (fun mc _ => by rw [if_neg (by omega)])
    rw [hpe]
    have hcast :
        (((moduleCounts (solutionsInView sols filt q)).map
            (fun mc => jsRound ((mc.2 : ℚ)
              / ((solutionsInView sols filt q).length : ℚ) * 100))).sum : ℚ)
          = (((moduleCounts (solutionsInView sols filt q)).map
              (fun mc => (mc.2 : ℚ)
                / ((solutionsInView sols filt q).length : ℚ) * 100)).map
              (fun x => ((jsRound x : ℤ) : ℚ))).sum := by
      rw [Int.cast_list_sum, List.map_map, List.map_map]
      rfl
    rw [hcast]
    have hsum :
        ((moduleCounts (solutionsInView sols filt q)).map
            (fun mc => (mc.2 : ℚ)
              / ((solutionsInView sols filt q).length : ℚ) * 100)).sum
          = 100 := by
      rw [sum_div_mul]
      have : ((moduleCounts (solutionsInView sols filt q)).map
          (fun mc => (mc.2 : ℚ))).sum
            = ((solutionsInView sols filt q).length : ℚ) := by
        have h1 := Nat.cast_list_sum (β := ℚ)
          ((moduleCounts (solutionsInView sols filt q)).map Prod.snd)
        rw [moduleCounts_sum] at h1
        rw [h1, List.map_map]
        rfl
      rw [this, div_self hT0, one_mul]
    have hb := round_sum_err ((moduleCounts (solutionsInView sols filt q)).map
      (fun mc => (mc.2 : ℚ)
        / ((solutionsInView sols filt q).length : ℚ) * 100))
    rw [hsum, List.length_map] at hb
    exact hb

theorem percentage_rounding_witness :
    0 < (solutionsInView sixModuleSols "All".toList []).length ∧
    |((percentages (solutionsInView sixModuleSols "All".toList [])).sum : ℚ)
        - 100|
      ≤ ((moduleCounts (solutionsInView sixModuleSols
          "All".toList [])).length : ℚ) / 2 :=
  ⟨by decide, (percentage_rounding sixModuleSols "All".toList []).2
    (by decide)⟩

/-- C7 (counterexample to the frozen ±1 bound): six modules with one record
each all display `round(100/6) = 17`, so the percentages sum to 102, which
is not within ±1 of 100. -/
theorem percentage_sum_cex :
    (percentages (solutionsInView sixModuleSols "All".toList [])).sum = 102 ∧
    ¬ (|(percentages (solutionsInView sixModuleSols
        "All".toList [])).sum - 100| ≤ 1) := by
  have h0 : solutionsInView sixModuleSols "All".toList [] = sixModuleSols :=
    by decide
  have h1 : moduleCounts sixModuleSols
      = [("a".toList, 1), ("b".toList, 1), ("c".toList, 1),
         ("d".toList, 1), ("e".toList, 1), ("f".toList, 1)] := by decide
  have hone : jsRound (((1 : ℕ) : ℚ) / ((6 : ℕ) : ℚ) * 100) = 17 := by
    unfold jsRound
    rw [Int.floor_eq_iff]
    constructor <;> push_cast <;> norm_num
  have hlen : sixModuleSols.length = 6 := rfl
  have hsum : percentages sixModuleSols = [17, 17, 17, 17, 17, 17] := by
    unfold percentages
    rw [h1]
    simp only [List.map_cons, List.map_nil, hlen,
      if_neg (show ¬((6 : ℕ) = 0) by norm_num)]
    rw [hone]
  rw [h0, hsum]
  constructor
  · decide
  · decide

theorem coerceAll_getElem (fresh : Nat → Str) (now : Str) :
    ∀ (xs : List RawRec) (k i : Nat),
      (coerceAll fresh now k xs)[i]?
        = (xs[i]?).map (fun r => coerceRaw (fresh (k + i)) now r) := by
  intro xs
  induction xs with
  | nil => intro k i; simp [coerceAll]
  | cons r rs ih =>
    intro k i
    cases i with
    | zero => simp [coerceAll]
    | succ j =>
      rw [coerceAll]
      rw [List.getElem?_cons_succ, List.getElem?_cons_succ, ih (k + 1) j]
      have : k + 1 + j = k + (j + 1) := by omega
      rw [this]

/-- C8 (amended): the Import Merger assigns the fresh synthetic id `fresh i`
to every incoming record lacking an id, and — provided the ids of the
coerced incoming batch together with the existing ids are pairwise
distinct — the merged collection's ids are pairwise distinct.  Without
that proviso the claim fails: an incoming record may carry an id already
present in the collection (see the counterexample). -/
theorem import_id_fresh_and_nodup (sols : List Solution) (xs : List RawRec)
    (fresh : Nat → Str) (now : Str) :
    (∀ i r, xs[i]? = some r → r.id = none →
      ((coerceAll fresh now 0 xs)[i]?).map Solution.id = some (fresh i)) ∧
    (((sols ++ coerceAll fresh now 0 xs).map Solution.id).Nodup →
      ((importStep (.array xs) fresh now sols).map Solution.id).Nodup) := by
  constructor
  · intro i r hi hid
    rw [coerceAll_getElem fresh now xs 0 i, hi]
    simp [coerceRaw, hid]
  · intro hnd
    have hstep : importStep (.array xs) fresh now sols
        = mergeImport sols (coerceAll fresh now 0 xs) := rfl
    rw [hstep]
    have hsub : List.Sublist (mergeImport sols (coerceAll fresh now 0 xs))
        (sols ++ coerceAll fresh now 0 xs) := by
      unfold mergeImport
      exact (List.filter_sublist _).append_left sols
    exact ((hsub.map Solution.id).nodup hnd)

theorem import_id_fresh_and_nodup_witness :
    ((([] : List Solution)
        ++ coerceAll (fun i => [Char.ofNat (102 + i)]) [] 0
            [({} : RawRec)]).map Solution.id).Nodup ∧
    ((importStep (.array [({} : RawRec)])
        (fun i => [Char.ofNat (102 + i)]) [] []).map Solution.id).Nodup :=
  ⟨by decide,
   (import_id_fresh_and_nodup [] [({} : RawRec)]
      (fun i => [Char.ofNat (102 + i)]) []).2 (by decide)⟩

/-- C8 (counterexample to the frozen claim): importing a record that
carries the id `"1"` — already used by the existing collection — but a
fresh title produces a merged collection whose ids are `["1", "1"]`:
duplicate ids are reachable, and the merge does not prevent them. -/
theorem import_duplicate_id_cex :
    ((importStep (.array [importCexRaw]) (fun _ => "f".toList) []
        importCexExisting).map Solution.id)
      = ["1".toList, "1".toList] ∧
    ¬ (((importStep (.array [importCexRaw]) (fun _ => "f".toList) []
        importCexExisting).map Solution.id).Nodup) := by
  exact ⟨by decide, by decide⟩

/-- C9 (amended): the coalesced `tags` of a raw imported element are: the
array value **kept as-is** when it is already a sequence (falsy entries are
*not* filtered out — see the counterexample), the comma-split of the string
value with pieces trimmed and empty pieces dropped when it is a string, and
the empty sequence otherwise. -/
theorem tags_coercion (fid now : Str) (r : RawRec) :
    (∀ l, r.tags = some (.inl l) → (coerceRaw fid now r).tags = some l) ∧
    (∀ s, r.tags = some (.inr s) →
      (coerceRaw fid now r).tags
        = some (((splitOnChar ',' s).map jsTrim).filter
            (fun t => !t.isEmpty))) ∧
    (r.tags = none → (coerceRaw fid now r).tags = some []) := by
  refine ⟨?_, ?_, ?_⟩
  · intro l h; simp [coerceRaw, coerceTags, h]
  · intro s h; simp [coerceRaw, coerceTags, splitCommaClean, h]
  · intro h; simp [coerceRaw, coerceTags, h]

theorem tags_coercion_witness :
    rawTagsCex.tags = some (.inl ["a".toList, []]) ∧
    (coerceRaw [] [] rawTagsCex).tags = some ["a".toList, []] :=
  ⟨by decide, (tags_coercion [] [] rawTagsCex).1 ["a".toList, []] (by decide)⟩

/-- C9 (counterexample to the frozen array clause): the array tags value
`["a", ""]` is kept as-is, including its falsy empty-string entry, rather
than being filtered. -/
theorem tags_array_not_filtered_cex :
    (coerceRaw [] [] rawTagsCex).tags = some ["a".toList, []] ∧
    (coerceRaw [] [] rawTagsCex).tags
      ≠ some (["a".toList, ([] : Str)].filter (fun t => !t.isEmpty)) := by
  exact ⟨by decide, by decide⟩

/-- C10: the canonical dedupe key deletes accented letters (every run of
characters outside `[a-z0-9]` becomes one space) instead of folding them
to their base letter, while search normalization folds them: `"Café"` and
`"Cafe"` (same module) get different canonical keys — neither the import
merge nor the manual-add duplicate gate treats them as duplicates — even
though `normalize` maps both titles to `"cafe"`. -/
theorem canon_diacritics_not_folded :
    canonKey cafeAcc ≠ canonKey cafePlain ∧
    normalizeText cafeAcc.title = normalizeText cafePlain.title ∧
    mergeImport [cafeAcc] [cafePlain] = [cafeAcc, cafePlain] ∧
    ([cafeAcc].any (fun s => canonKey s == canonKey cafePlain)) = false ∧
    submitAdd addFormCafe "9".toList "now".toList false [cafeAcc]
      = .added (mkAddItem addFormCafe "9".toList "now".toList :: [cafeAcc]) := by
  refine ⟨by decide, by decide, by decide, by decide, by decide⟩
